import Mathlib

/-!
Verification model of `itchio_charity_bundles_feed.py` (itchio-charity-watcher).

Conventions of the shallow embedding:
* Points in time are modelled as `Int` seconds (the script compares timezone-aware
  `datetime` values, which form a linear order; `timedelta(days=d)` becomes `d * 86400`).
  The ambient clock `dt.datetime.now(dt.timezone.utc)` becomes an explicit `now : Int`
  argument.
* The HTML document collaborator (BeautifulSoup) is abstracted: a fetched listing page
  is the list of its anchor elements, each carrying the href attribute, the
  whitespace-collapsed text of its 3-levels-up container (`extract_text(container)`),
  and the parsed `datetime` attribute of the first `time` element of that container
  (`none` when there is no such element, no attribute, or `parse_iso` fails).
* The HTTP collaborator `get` is abstracted as functions returning `Option` results;
  `none` models a raised exception (timeout / HTTP error), which the script catches.
* Python regular-expression searches used by the script are whole-word literal
  searches; they are modelled character-exactly over `List Char` below (ASCII word
  characters, which covers every pattern and witness in scope).
-/

namespace ItchioFeed

/-- ASCII word character, as used by the `\b` boundaries of the regexes in scope
(`[A-Za-z0-9_]`). -/
def isWordChar (c : Char) : Bool :=
  c.isAlphanum || c = '_'

/-- Whitespace characters matched by the regex class `\s` (ASCII range). -/
def isSpaceChar (c : Char) : Bool :=
  c = ' ' || c = '\t' || c = '\n' || c = '\r' || c.toNat = 12 || c.toNat = 11

/-- Case folding used to model the `re.I` flag. -/
def lowerChars (s : List Char) : List Char :=
  s.map Char.toLower

/-- A word boundary `\b` holds after a match ending in a word character iff the
following character (if any) is not a word character. -/
def boundaryAfter : List Char → Bool
  | [] => true
  | c :: _ => !isWordChar c

/-- Does `pat` occur as a contiguous sublist of `s`?  Models `'sub' in str`
and the CSS attribute selector `[href*='sub']`. -/
def containsSub (pat : List Char) : List Char → Bool
  | [] => pat.isEmpty
  | s@(_ :: rest) => pat.isPrefixOf s || containsSub pat rest

/-- Search for `pat` (a literal starting and ending in a word character) at any
position of `text` with `\b` boundaries on each side.  `prevOk` says whether a
match may start at the current position (true at the start of the string and
after any non-word character). -/
def wordFind (pat : List Char) : List Char → Bool → Bool
  | [], _ => false
  | s@(c :: rest), prevOk =>
    (prevOk && (pat.isPrefixOf s && boundaryAfter (s.drop pat.length)))
      || wordFind pat rest (!isWordChar c)

/-- Case-insensitive whole-word/phrase search: models `re.search(r"\b<pat>\b", text, re.I)`
for a literal pattern that starts and ends with a word character. -/
def wordSearchCI (pat : String) (text : String) : Bool :=
  wordFind (lowerChars pat.toList) (lowerChars text.toList) true

/-- One literal alternative of the `CHARITY` regex at the current position:
the literal must be a prefix here and be followed by a `\b` boundary. -/
def litAlt (pat : List Char) (s : List Char) : Bool :=
  pat.isPrefixOf s && boundaryAfter (s.drop pat.length)

/-- The alternative `fund(?:\s*raiser)?` followed by `\b`: after the literal
`fund`, either a word boundary, or some whitespace and the literal `raiser`
followed by a word boundary.  (Since `raiser` starts with a non-space character,
the backtracking search of `\s*` succeeds iff skipping the maximal whitespace
run lands exactly on `raiser`.) -/
def fundAlt (s : List Char) : Bool :=
  ("fund".toList).isPrefixOf s &&
    (boundaryAfter (s.drop 4) ||
      (let rest := (s.drop 4).dropWhile isSpaceChar
       ("raiser".toList).isPrefixOf rest && boundaryAfter (rest.drop 6)))

/-- All alternatives of the `CHARITY` regex tried at one position (text already
lower-cased): `charity|fundraiser|donation|relief|mutual aid|non[- ]?profit|benefit|fund(?:\s*raiser)?`. -/
def charityAltAt (s : List Char) : Bool :=
  litAlt "charity".toList s || litAlt "fundraiser".toList s ||
  litAlt "donation".toList s || litAlt "relief".toList s ||
  litAlt "mutual aid".toList s ||
  litAlt "nonprofit".toList s || litAlt "non-profit".toList s ||
  litAlt "non profit".toList s ||
  litAlt "benefit".toList s || fundAlt s

/-- Scan of the lower-cased text for a `CHARITY` match; `prevOk` tracks the
leading `\b` (every alternative starts with a word character). -/
def charityFind : List Char → Bool → Bool
  | [], _ => false
  | s@(c :: rest), prevOk =>
    (prevOk && charityAltAt s) || charityFind rest (!isWordChar c)

/-- Models `bool(CHARITY.search(text))` for the module-level regex
`CHARITY = re.compile(r"\b(charity|fundraiser|donation|relief|mutual aid|non[- ]?profit|benefit|fund(?:\s*raiser)?)\b", re.I)`. -/
def charityMatches (text : String) : Bool :=
  charityFind (lowerChars text.toList) true

/-- Prefix test on strings (via their character lists); models `str.startswith`. -/
def strStarts (pat s : String) : Bool :=
  pat.toList.isPrefixOf s.toList

/-- Substring test on strings; models `'sub' in s` / `a[href*='sub']`. -/
def strHas (pat s : String) : Bool :=
  containsSub pat.toList s.toList

/-- Models `urljoin("https://itch.io/", href)` for the href shapes that reach this
branch of `to_abs` (no leading slash, no scheme): the relative reference is
resolved against the base path `/`.  Dot-segment normalization is not modelled;
no claim in scope exercises it. -/
def urljoinItch (href : String) : String :=
  "https://itch.io/" ++ href

/-- Models `to_abs` from the script: absolute http(s) URLs pass through, a
leading slash is joined to the site origin, the empty string maps to itself,
anything else is resolved against the base URL. -/
def to_abs (href : String) : String :=
  if href = "" then ""
  else if strStarts "http://" href || strStarts "https://" href then href
  else if strStarts "/" href then "https://itch.io" ++ href
  else urljoinItch href

/-- Models the setting `MAX_AGE_DAYS = 30`. -/
def MAX_AGE_DAYS : Int := 30

/-- Models `within_age(ts, days)`: `False` for an absent timestamp, otherwise
`ts >= now - timedelta(days=days)`.  The clock is passed explicitly. -/
def within_age (ts : Option Int) (days : Int) (now : Int) : Bool :=
  match ts with
  | none => false
  | some t => decide (now - days * 86400 ≤ t)

/-- Settings block of the script: page / per-page / total caps for jam listings. -/
def MAX_JAMS_PAGES : Nat := 5

/-- Safety cap per listing page (`MAX_JAMS_PER_PAGE = 60`). -/
def MAX_JAMS_PER_PAGE : Nat := 60

/-- Overall safety cap, documented in the script as "per run across all jam lists"
(`MAX_JAMS_TOTAL = 400`). -/
def MAX_JAMS_TOTAL : Nat := 400

/-- One anchor element matched by `soup.select("a[href*='/jam/']")` on a listing
page, together with what the script reads from its surrounding card: `blob` is
`extract_text(container)` for the container three parents above the anchor, and
`time` is the parsed `datetime` attribute of `container.find("time")` (`none`
when absent or unparseable). -/
structure JamAnchor where
  href : String
  blob : String
  time : Option Int
deriving DecidableEq, Repr

/-- The status-phrase test of the card filter: `starts_in or closes_in or ends_in`
where `starts_in`, `closes_in`, `ends_in` are the three regex searches
`\bStarts in\b`, `\bSubmission closes in\b` and `\b(Ends in|Closes in)\b`. -/
def statusPhrase (blob : String) : Bool :=
  wordSearchCI "starts in" blob || wordSearchCI "submission closes in" blob ||
    (wordSearchCI "ends in" blob || wordSearchCI "closes in" blob)

/-- The two-tier `keep` decision of the card filter: with a structured timestamp,
a status phrase must be present and the timestamp strictly in the future
(`ts_val > now`); without one, a status phrase alone keeps the card. -/
def keepCard (now : Int) (a : JamAnchor) : Bool :=
  match a.time with
  | some t => statusPhrase a.blob && decide (now < t)
  | none => statusPhrase a.blob

/-- The whole per-card filter chain of `collect_jam_links_from_listing`: the
anchor came from the selector `a[href*='/jam/']`, its absolute link starts with
`https://itch.io/jam/`, the link is not yet in `JAMS_SEEN_LINKS`, the container
text does not contain the whole word `Ended` (case-insensitive), and the
two-tier keep rule holds.  Each conjunct corresponds to one `continue` in the
source, in order. -/
def cardEligible (now : Int) (seen : List String) (a : JamAnchor) : Bool :=
  strHas "/jam/" a.href &&
  strStarts "https://itch.io/jam/" (to_abs a.href) &&
  !(decide (to_abs a.href ∈ seen)) &&
  !(wordSearchCI "ended" a.blob) &&
  keepCard now a

/-- Inner loop of `collect_jam_links_from_listing` over the anchors of one page.
State is `(JAMS_SEEN_LINKS, collected, seen_page)`.  An eligible card is added
to the registry and appended to `collected`; the loop breaks when the per-page
cap or the total cap is reached (checked after the append, as in the source). -/
def scanAnchors (now : Int) (perPageCap totalCap : Nat) :
    List JamAnchor → List String × List (String × Option Int) × Nat →
      List String × List (String × Option Int) × Nat
  | [], st => st
  | a :: rest, (seen, collected, seenPage) =>
    if cardEligible now seen a then
      let link := to_abs a.href
      let seen' := link :: seen
      let collected' := collected ++ [(link, a.time)]
      let seenPage' := seenPage + 1
      if perPageCap ≤ seenPage' || totalCap ≤ collected'.length then
        (seen', collected', seenPage')
      else
        scanAnchors now perPageCap totalCap rest (seen', collected', seenPage')
    else
      scanAnchors now perPageCap totalCap rest (seen, collected, seenPage)

/-- Result of one listing walk: the updated global link registry, the collected
`(link, card timestamp)` pairs, and the pages for which a fetch was attempted
(the instrumentation recording every call of `get` on a listing page URL). -/
structure WalkResult where
  seen : List String
  collected : List (String × Option Int)
  fetched : List Nat
deriving DecidableEq, Repr

/-- Page loop of `collect_jam_links_from_listing` over the remaining page numbers.
Mirrors the source: stop when the total cap is already reached; a failed fetch is
logged and skipped (`continue`); after scanning a page, stop when the page
yielded zero new kept links and the page number is greater than 1. -/
def walkPages (fetch : Nat → Option (List JamAnchor)) (now : Int)
    (perPageCap totalCap : Nat) :
    List Nat → List String → List (String × Option Int) → List Nat → WalkResult
  | [], seen, collected, log => ⟨seen, collected, log⟩
  | p :: ps, seen, collected, log =>
    if totalCap ≤ collected.length then ⟨seen, collected, log⟩
    else
      match fetch p with
      | none => walkPages fetch now perPageCap totalCap ps seen collected (log ++ [p])
      | some anchors =>
        let r := scanAnchors now perPageCap totalCap anchors (seen, collected, 0)
        if r.2.2 = 0 ∧ 1 < p then ⟨r.1, r.2.1, log ++ [p]⟩
        else walkPages fetch now perPageCap totalCap ps r.1 r.2.1 (log ++ [p])

/-- Models `collect_jam_links_from_listing(base_url, max_pages, per_page_cap, total_cap)`:
the loop `for p in range(1, max_pages + 1)` starting from the ambient registry
`seen0`.  `fetch p` stands for `get(page_url)` for page `p` of the listing. -/
def collect_jam_links_from_listing (fetch : Nat → Option (List JamAnchor))
    (now : Int) (maxPages perPageCap totalCap : Nat) (seen0 : List String) :
    WalkResult :=
  walkPages fetch now perPageCap totalCap (List.range' 1 maxPages) seen0 [] []

/-- The collection phase of `items_from_jams_list`: one listing walked with the
configured caps. -/
def items_from_jams_list_links (fetch : Nat → Option (List JamAnchor))
    (now : Int) (seen0 : List String) : WalkResult :=
  collect_jam_links_from_listing fetch now MAX_JAMS_PAGES MAX_JAMS_PER_PAGE
    MAX_JAMS_TOTAL seen0

/-- Several jam-listing sources processed in order by the orchestrator: each
listing gets a fresh walk, while `JAMS_SEEN_LINKS` (the module-global registry)
is threaded from one walk to the next.  Returns the per-listing collected lists. -/
def runJamSources (now : Int) :
    List (Nat → Option (List JamAnchor)) → List String →
      List (List (String × Option Int))
  | [], _ => []
  | f :: fs, seen =>
    let r := items_from_jams_list_links f now seen
    r.collected :: runJamSources now fs r.seen

/-! ### SHA-1 (models `hashlib.sha1(...).hexdigest()`)

Arithmetic is on `Nat` with explicit reduction modulo `2 ^ 32`. -/

/-- 32-bit left rotation. -/
def rotl32 (n x : Nat) : Nat :=
  ((x <<< n) ||| (x >>> (32 - n))) % 4294967296

/-- Big-endian bytes of a value, most significant first. -/
def beBytes : Nat → Nat → List Nat
  | 0, _ => []
  | k + 1, v => (v >>> (8 * k)) % 256 :: beBytes k v

/-- Group a byte list into big-endian 32-bit words. -/
def bytesToWords : List Nat → List Nat
  | b0 :: b1 :: b2 :: b3 :: rest =>
    (((b0 * 256 + b1) * 256 + b2) * 256 + b3) :: bytesToWords rest
  | _ => []

/-- Extend the 16 message-schedule words to 80:
`w[i] = rotl1 (w[i-3] xor w[i-8] xor w[i-14] xor w[i-16])`. -/
def extendW (ws : List Nat) : Nat → List Nat
  | 0 => ws
  | n + 1 =>
    let l := ws.length
    extendW
      (ws ++ [rotl32 1 (((ws.getD (l - 3) 0 ^^^ ws.getD (l - 8) 0) ^^^
        ws.getD (l - 14) 0) ^^^ ws.getD (l - 16) 0)]) n

/-- The five-word SHA-1 state. -/
structure Sha1State where
  a : Nat
  b : Nat
  c : Nat
  d : Nat
  e : Nat
deriving DecidableEq, Repr

/-- One of the 80 SHA-1 rounds. -/
def sha1Round (i w : Nat) (s : Sha1State) : Sha1State :=
  let f :=
    if i < 20 then (s.b &&& s.c) ||| ((s.b ^^^ 4294967295) &&& s.d)
    else if i < 40 then (s.b ^^^ s.c) ^^^ s.d
    else if i < 60 then ((s.b &&& s.c) ||| (s.b &&& s.d)) ||| (s.c &&& s.d)
    else (s.b ^^^ s.c) ^^^ s.d
  let k :=
    if i < 20 then 1518500249
    else if i < 40 then 1859775393
    else if i < 60 then 2400959708
    else 3395469782
  let temp := (rotl32 5 s.a + f + s.e + k + w) % 4294967296
  ⟨temp, s.a, rotl32 30 s.b, s.c, s.d⟩

/-- Run the rounds over the extended schedule. -/
def sha1Rounds : Nat → List Nat → Sha1State → Sha1State
  | _, [], s => s
  | i, w :: ws, s => sha1Rounds (i + 1) ws (sha1Round i w s)

/-- Compress one 64-byte chunk into the running state. -/
def sha1Compress (h : Sha1State) (chunk : List Nat) : Sha1State :=
  let s := sha1Rounds 0 (extendW (bytesToWords chunk) 64) h
  ⟨(h.a + s.a) % 4294967296, (h.b + s.b) % 4294967296,
   (h.c + s.c) % 4294967296, (h.d + s.d) % 4294967296,
   (h.e + s.e) % 4294967296⟩

/-- Fold the compression over successive 64-byte chunks. -/
def sha1Chunks (bytes : List Nat) (h : Sha1State) : Sha1State :=
  if _hlen : 64 ≤ bytes.length then
    sha1Chunks (bytes.drop 64) (sha1Compress h (bytes.take 64))
  else h
termination_by bytes.length
decreasing_by
  simp only [List.length_drop]
  omega

/-- SHA-1 padding: a `0x80` byte, zeros to 56 mod 64, then the bit length as
eight big-endian bytes. -/
def sha1Pad (bytes : List Nat) : List Nat :=
  bytes ++ 128 :: List.replicate ((120 - (bytes.length + 1) % 64) % 64) 0 ++
    beBytes 8 (bytes.length * 8)

/-- Lower-case hex digit. -/
def hexChar (n : Nat) : Char :=
  if n < 10 then Char.ofNat (48 + n) else Char.ofNat (87 + n)

/-- Eight hex digits of a 32-bit word, most significant first. -/
def wordHex (w : Nat) : List Char :=
  (List.range 8).map fun i => hexChar ((w >>> (4 * (7 - i))) &&& 15)

/-- Hex digest of a byte list, as produced by `hashlib.sha1(...).hexdigest()`. -/
def sha1Hex (bytes : List Nat) : String :=
  let s := sha1Chunks (sha1Pad bytes) ⟨1732584193, 4023233417, 2562383102, 271733878, 3285377520⟩
  ⟨wordHex s.a ++ wordHex s.b ++ wordHex s.c ++ wordHex s.d ++ wordHex s.e⟩

/-- UTF-8 bytes of a string, models `str.encode("utf-8")`. -/
def strBytes (s : String) : List Nat :=
  s.toUTF8.toList.map UInt8.toNat

/-! ### Candidate items, fingerprinting, extraction strategies -/

/-- A candidate item dict as built by the extraction strategies:
`{"title": ..., "link": ..., "summary": ..., "ts": ...}`.  `ts = none` models a
`None` timestamp. -/
structure Item where
  title : String
  link : String
  summary : String
  ts : Option Int
deriving DecidableEq, Repr

/-- Models `hash_item`: the SHA-1 hex digest of the UTF-8 bytes of
`it["title"] + it["link"]` (concatenation with no separator). -/
def hash_item (it : Item) : String :=
  sha1Hex (strBytes (it.title ++ it.link))

/-- The `pubDate` choice of `build_rss`: `when = it.get("ts") or now`. -/
def rssWhen (it : Item) (now : Int) : Int :=
  match it.ts with
  | some t => t
  | none => now

/-- An anchor on a blog-index or generic page as far as the scan reads it:
href attribute, `extract_text(a)`, and `extract_text(parent)` for
`a.find_parent()` (`none` when there is no parent). -/
structure PageAnchor where
  href : String
  text : String
  parentText : Option String
deriving DecidableEq, Repr

/-- Python string slicing `s[:n]` (by code points). -/
def pyTake (n : Nat) (s : String) : String :=
  ⟨s.toList.take n⟩

/-- `snippet = extract_text(parent)[:500] if parent else ""`. -/
def anchorSnippet (a : PageAnchor) : String :=
  match a.parentText with
  | some t => pyTake 500 t
  | none => ""

/-- The blog-index branch of `items_from_html`: for each anchor, resolve the
link, require nonempty text and link on the site, build the blob, require a
`CHARITY` match; for on-site blog-post links fetch the post and extract a page
timestamp (`fetchTs`, with `none` covering both fetch failure and no timestamp
found); keep only items passing `within_age`. -/
def blogItems (label : String) (now : Int) (fetchTs : String → Option Int) :
    List PageAnchor → List Item
  | [] => []
  | a :: rest =>
    let href := to_abs a.href
    let text := a.text
    let tail := blogItems label now fetchTs rest
    if href = "" || text = "" || !(strStarts "https://itch.io" href) then tail
    else
      let snippet := anchorSnippet a
      let blob := text ++ " — " ++ snippet
      if charityMatches blob then
        let ts := if strStarts "https://itch.io/blog/" href then fetchTs href else none
        if within_age ts MAX_AGE_DAYS now then
          ⟨pyTake 160 (label ++ " " ++ text), href, pyTake 280 snippet, ts⟩ :: tail
        else tail
      else tail

/-- The generic-page branch of `items_from_html` (thread pages land here): one
page-level timestamp, and one candidate per anchor whose blob matches `CHARITY`
and whose page timestamp passes `within_age`. -/
def genericItems (label : String) (now : Int) (pageTs : Option Int) :
    List PageAnchor → List Item
  | [] => []
  | a :: rest =>
    let href := to_abs a.href
    let text := a.text
    let tail := genericItems label now pageTs rest
    if href = "" || text = "" || !(strStarts "https://itch.io" href) then tail
    else
      let snippet := anchorSnippet a
      let blob := text ++ " — " ++ snippet
      if charityMatches blob && within_age pageTs MAX_AGE_DAYS now then
        ⟨pyTake 160 (label ++ " " ++ text), href, pyTake 280 snippet, pageTs⟩ :: tail
      else tail

/-- What the jam detail phase reads from a fetched jam page: the concatenated
text of the likely content regions (`jam_page_matches`), and the heading text
from `select_one("h1, .jam_title, .header_title")` (empty when none found,
since `extract_text(None) = ""`). -/
structure JamDetail where
  text : String
  heading : String
deriving DecidableEq, Repr

/-- The detail phase of `items_from_jams_list`: fetch every kept jam link
(`none` models a raised fetch error, which skips that jam), apply the `CHARITY`
matcher to the full page text, and emit an item whose timestamp is
`card_ts or dt.datetime.now(...)` — always a present timestamp. -/
def jamDetailItems (label : String) (now : Int)
    (fetchJam : String → Option JamDetail) :
    List (String × Option Int) → List Item
  | [] => []
  | (jlink, cardTs) :: rest =>
    let tail := jamDetailItems label now fetchJam rest
    match fetchJam jlink with
    | none => tail
    | some d =>
      if charityMatches d.text then
        ⟨pyTake 160 (label ++ " " ++ (if d.heading = "" then "Jam" else d.heading)),
          jlink, pyTake 280 d.text, some (cardTs.getD now)⟩ :: tail
      else tail

/-! ### Run orchestrator (`main`) -/

/-- The inner loop of `main` over the items of one source: `found` gains the
items whose fingerprint was absent from the seen-set loaded at run start
(`seen0`, never mutated during the run), and `new_seen` gains every
fingerprint unconditionally. -/
def processItems (seen0 : Finset String) :
    List Item → List Item × Finset String → List Item × Finset String
  | [], st => st
  | it :: rest, (found, newSeen) =>
    let found' := if hash_item it ∈ seen0 then found else found ++ [it]
    processItems seen0 rest (found', insert (hash_item it) newSeen)

/-- The source loop of `main`: each source either failed its fetch (`none`,
logged and skipped) or produced a list of candidate items. -/
def runSources (seen0 : Finset String) :
    List (Option (List Item)) → List Item × Finset String → List Item × Finset String
  | [], st => st
  | none :: rest, st => runSources seen0 rest st
  | some items :: rest, st => runSources seen0 rest (processItems seen0 items st)

/-- All items discovered this run: the concatenation of the item lists of the
sources whose fetch succeeded, in order. -/
def discovered : List (Option (List Item)) → List Item
  | [] => []
  | none :: rest => discovered rest
  | some items :: rest => items ++ discovered rest

/-- Python `l[-n:]` for `n > 0`: the last `n` elements (all of them when the
list is shorter). -/
def pyTail (n : Nat) (l : List Item) : List Item :=
  l.drop (l.length - n)

/-- Outcome of one `main` run. -/
structure RunResult where
  emitted : List Item
  found : List Item
  newSeen : Finset String
deriving DecidableEq

/-- Models `main` given the per-source extraction results: builds `found` and
`new_seen` from the loaded seen-set, emits `found[-50:]` to `build_rss`, and
persists `new_seen` via `save_seen`. -/
def mainRun (pages : List (Option (List Item))) (seen0 : Finset String) : RunResult :=
  let r := runSources seen0 pages ([], seen0)
  ⟨pyTail 50 r.1, r.1, r.2⟩

/-! ### Concrete jam-listing content exhibiting the per-listing total cap

The cards below are all distinct, fresh and keepable, so a full walk keeps
`MAX_JAMS_PAGES * MAX_JAMS_PER_PAGE = 300` of them per listing. -/

/-- Distinct suffix for the i-th synthetic jam URL. -/
def bigTag (i : Nat) : String :=
  ⟨List.replicate i 'a'⟩

/-- The i-th synthetic jam link. -/
def bigLink (i : Nat) : String :=
  "https://itch.io/jam/" ++ bigTag i

/-- The i-th synthetic jam card: keepable (status phrase, no structured time). -/
def bigAnchor (i : Nat) : JamAnchor :=
  ⟨bigLink i, "Starts in 2 days", none⟩

/-- A listing page of 60 synthetic cards starting at index `start`. -/
def bigPage (start : Nat) : List JamAnchor :=
  (List.range 60).map fun k => bigAnchor (start + k)

/-- A jam listing whose page `p` shows cards `base + (p-1)*60 ..`. -/
def fetchBig (base p : Nat) : Option (List JamAnchor) :=
  some (bigPage (base + (p - 1) * 60))

/-- Characterization of the link registry contents during a synthetic walk:
exactly the links of index below `B`. -/
def SeenSpec (B : Nat) (seen : List String) : Prop :=
  ∀ x, x ∈ seen ↔ ∃ i, i < B ∧ x = bigLink i

/-! ### Concrete listings for the pagination early-stop scenarios -/

/-- A keepable jam card with the given link suffix (status phrase, no
structured time, not ended). -/
def jamCard (s : String) : JamAnchor :=
  ⟨"https://itch.io/jam/" ++ s, "Ends in 3 days", none⟩

/-- Listing with page yields [P1: 3 kept, P2: 0 kept, P3: 5 kept]. -/
def fetchStop (p : Nat) : Option (List JamAnchor) :=
  if p = 1 then some [jamCard "a1", jamCard "a2", jamCard "a3"]
  else if p = 3 then some [jamCard "b1", jamCard "b2", jamCard "b3", jamCard "b4", jamCard "b5"]
  else some []

/-- Listing whose page 1 yields nothing but page 2 yields 2 kept cards. -/
def fetchZeroFirst (p : Nat) : Option (List JamAnchor) :=
  if p = 2 then some [jamCard "c1", jamCard "c2"] else some []

/-- Listing whose page 2 fetch fails while pages 1 and 3 yield kept cards. -/
def fetchFailMid (p : Nat) : Option (List JamAnchor) :=
  if p = 1 then some [jamCard "d1", jamCard "d2", jamCard "d3"]
  else if p = 2 then none
  else if p = 3 then some [jamCard "e1", jamCard "e2", jamCard "e3", jamCard "e4", jamCard "e5"]
  else some []

/-- Listing all of whose pages are empty. -/
def fetchNothing : Nat → Option (List JamAnchor) :=
  fun _ => some []

/-! ### Helper lemmas -/

theorem isPrefixOf_append_left {pat u : List Char} (v : List Char)
    (h : pat.isPrefixOf u = true) : pat.isPrefixOf (u ++ v) = true := by
  simp only [List.isPrefixOf_iff_prefix] at h ⊢
  exact h.trans (List.prefix_append u v)

theorem isPrefixOf_append_of_le {pat u : List Char} (v : List Char)
    (h : pat.length ≤ u.length) : pat.isPrefixOf (u ++ v) = pat.isPrefixOf u := by
  have h3 : pat.isPrefixOf (u ++ v) = true ↔ pat.isPrefixOf u = true := by
    rw [List.isPrefixOf_iff_prefix, List.isPrefixOf_iff_prefix,
      List.prefix_iff_eq_take, List.prefix_iff_eq_take,
      List.take_append_of_le_length h]
  cases hx : pat.isPrefixOf (u ++ v) <;> cases hu : pat.isPrefixOf u <;> simp_all

theorem containsSub_pat_nil (v : List Char) : containsSub [] v = true := by
  cases v <;> simp [containsSub, List.isPrefixOf]

theorem containsSub_append_left {pat u : List Char} (v : List Char)
    (h : containsSub pat u = true) : containsSub pat (u ++ v) = true := by
  induction u with
  | nil =>
    simp only [containsSub, List.isEmpty_iff] at h
    subst h
    exact containsSub_pat_nil v
  | cons c cs ih =>
    simp only [containsSub, Bool.or_eq_true, List.cons_append] at h ⊢
    rcases h with h | h
    · exact Or.inl (isPrefixOf_append_left v h)
    · exact Or.inr (ih h)

theorem strStarts_append (pat u v : String) (h : pat.toList.length ≤ u.toList.length) :
    strStarts pat (u ++ v) = strStarts pat u := by
  have hd : (u ++ v).toList = u.toList ++ v.toList := rfl
  unfold strStarts
  rw [hd]
  exact isPrefixOf_append_of_le _ h

theorem strHas_append (pat u v : String) (h : strHas pat u = true) :
    strHas pat (u ++ v) = true := by
  have hd : (u ++ v).toList = u.toList ++ v.toList := rfl
  unfold strHas at h ⊢
  rw [hd]
  exact containsSub_append_left _ h

theorem append_ne_empty (u v : String) (h : u.toList ≠ []) : u ++ v ≠ "" := by
  intro he
  have h2 : (u ++ v).toList = u.toList ++ v.toList := rfl
  rw [he] at h2
  exact h (List.append_eq_nil.mp h2.symm).1

/-- The per-card filter as a conjunction of propositions, one per `continue`. -/
theorem cardEligible_iff (now : Int) (seen : List String) (a : JamAnchor) :
    cardEligible now seen a = true ↔
      strHas "/jam/" a.href = true ∧
      strStarts "https://itch.io/jam/" (to_abs a.href) = true ∧
      to_abs a.href ∉ seen ∧
      wordSearchCI "ended" a.blob = false ∧
      keepCard now a = true := by
  simp [cardEligible, Bool.and_eq_true, Bool.not_eq_true', and_assoc]

/-- When every anchor of a page passes the card filter afresh and neither cap
can fire before the end of the page, the scan keeps all of them, in order. -/
theorem scanAnchors_all_kept (now : Int) (pc tc : Nat) :
    ∀ (l : List JamAnchor) (seen : List String) (col : List (String × Option Int)) (sp : Nat),
      (∀ a ∈ l, strHas "/jam/" a.href = true) →
      (∀ a ∈ l, strStarts "https://itch.io/jam/" (to_abs a.href) = true) →
      (∀ a ∈ l, to_abs a.href ∉ seen) →
      (∀ a ∈ l, wordSearchCI "ended" a.blob = false) →
      (∀ a ∈ l, keepCard now a = true) →
      (l.map fun a => to_abs a.href).Nodup →
      sp + l.length ≤ pc → col.length + l.length ≤ tc →
      scanAnchors now pc tc l (seen, col, sp) =
        ((l.map fun a => to_abs a.href).reverse ++ seen,
          col ++ l.map (fun a => (to_abs a.href, a.time)), sp + l.length)
  | [], seen, col, sp, _, _, _, _, _, _, _, _ => by simp [scanAnchors]
  | a :: rest, seen, col, sp, h1, h2, h3, h4, h5, hnd, hpc, htc => by
    have hel : cardEligible now seen a = true :=
      (cardEligible_iff now seen a).mpr
        ⟨h1 a (by simp), h2 a (by simp), h3 a (by simp), h4 a (by simp), h5 a (by simp)⟩
    rw [show scanAnchors now pc tc (a :: rest) (seen, col, sp) =
        (if cardEligible now seen a then
          (if decide (pc ≤ sp + 1) || decide (tc ≤ (col ++ [(to_abs a.href, a.time)]).length) then
            (to_abs a.href :: seen, col ++ [(to_abs a.href, a.time)], sp + 1)
          else scanAnchors now pc tc rest
            (to_abs a.href :: seen, col ++ [(to_abs a.href, a.time)], sp + 1))
        else scanAnchors now pc tc rest (seen, col, sp)) from rfl]
    rw [if_pos hel]
    simp only [List.length_cons] at hpc htc
    by_cases hbrk : pc ≤ sp + 1 ∨ tc ≤ (col ++ [(to_abs a.href, a.time)]).length
    · have hrest : rest = [] := by
        rcases hbrk with hb | hb
        · exact List.length_eq_zero.mp (by omega)
        · simp only [List.length_append, List.length_cons, List.length_nil] at hb
          exact List.length_eq_zero.mp (by omega)
      subst hrest
      rw [if_pos (by simpa [Bool.or_eq_true, decide_eq_true_iff] using hbrk)]
      simp
    · push_neg at hbrk
      rw [if_neg (by simpa [Bool.or_eq_true, decide_eq_true_iff, not_or] using hbrk)]
      have hnd' := hnd
      simp only [List.map_cons, List.nodup_cons] at hnd'
      have ih := scanAnchors_all_kept now pc tc rest (to_abs a.href :: seen)
        (col ++ [(to_abs a.href, a.time)]) (sp + 1)
        (fun b hb => h1 b (by simp [hb])) (fun b hb => h2 b (by simp [hb]))
        (fun b hb => by
          simp only [List.mem_cons, not_or]
          exact ⟨fun he => hnd'.1 (he ▸ List.mem_map_of_mem _ hb),
            h3 b (by simp [hb])⟩)
        (fun b hb => h4 b (by simp [hb])) (fun b hb => h5 b (by simp [hb]))
        hnd'.2 (by omega) (by simp; omega)
      rw [ih]
      simp only [List.map_cons, List.reverse_cons, List.append_assoc, List.singleton_append,
        List.cons_append, List.nil_append, Prod.mk.injEq, List.length_append,
        List.length_cons, List.length_nil, true_and]
      omega

theorem bigLink_toList (i : Nat) :
    (bigLink i).toList = "https://itch.io/jam/".toList ++ List.replicate i 'a' := rfl

theorem bigLink_inj {i j : Nat} (h : bigLink i = bigLink j) : i = j := by
  have h2 : (bigLink i).toList = (bigLink j).toList := by rw [h]
  rw [bigLink_toList, bigLink_toList] at h2
  have h3 := List.append_cancel_left h2
  have h4 := congrArg List.length h3
  simpa using h4

theorem to_abs_bigLink (i : Nat) : to_abs (bigLink i) = bigLink i := by
  unfold to_abs
  rw [if_neg, if_pos]
  · rw [Bool.or_eq_true]
    refine Or.inr ?_
    rw [show bigLink i = "https://itch.io/jam/" ++ bigTag i from rfl,
      strStarts_append "https://" "https://itch.io/jam/" (bigTag i) (by decide)]
    decide
  · exact append_ne_empty "https://itch.io/jam/" (bigTag i) (by decide)

theorem strHas_bigLink (i : Nat) : strHas "/jam/" (bigLink i) = true := by
  rw [show bigLink i = "https://itch.io/jam/" ++ bigTag i from rfl]
  exact strHas_append "/jam/" "https://itch.io/jam/" (bigTag i) (by decide)

theorem strStarts_bigLink (i : Nat) :
    strStarts "https://itch.io/jam/" (bigLink i) = true := by
  rw [show bigLink i = "https://itch.io/jam/" ++ bigTag i from rfl,
    strStarts_append "https://itch.io/jam/" "https://itch.io/jam/" (bigTag i) (by omega)]
  decide

theorem seenSpec_empty : SeenSpec 0 [] := by
  intro x
  simp [SeenSpec]

/-- Walking `m` further pages of a synthetic listing keeps 60 links per page. -/
theorem walkPages_big (base : Nat) :
    ∀ (m q : Nat) (seen : List String) (col : List (String × Option Int)) (log : List Nat),
      SeenSpec (base + q * 60) seen →
      col.length + 60 * m ≤ 400 →
      SeenSpec (base + q * 60 + 60 * m)
          (walkPages (fetchBig base) 0 60 400 (List.range' (q + 1) m) seen col log).seen ∧
        (walkPages (fetchBig base) 0 60 400 (List.range' (q + 1) m) seen col log).collected.length
          = col.length + 60 * m
  | 0, q, seen, col, log, hspec, _ => by
    simpa [walkPages] using hspec
  | m + 1, q, seen, col, log, hspec, hcap => by
    have hrange : List.range' (q + 1) (m + 1) = (q + 1) :: List.range' (q + 2) m := by
      rw [List.range'_succ]
    have hfetch : fetchBig base (q + 1) = some (bigPage (base + q * 60)) := by
      simp [fetchBig]
    have hscan := scanAnchors_all_kept 0 60 400 (bigPage (base + q * 60)) seen col 0
      (by
        intro a ha
        simp only [bigPage, List.mem_map, List.mem_range] at ha
        obtain ⟨k, _, rfl⟩ := ha
        exact strHas_bigLink _)
      (by
        intro a ha
        simp only [bigPage, List.mem_map, List.mem_range] at ha
        obtain ⟨k, _, rfl⟩ := ha
        rw [show (bigAnchor (base + q * 60 + k)).href = bigLink (base + q * 60 + k) from rfl,
          to_abs_bigLink]
        exact strStarts_bigLink _)
      (by
        intro a ha
        simp only [bigPage, List.mem_map, List.mem_range] at ha
        obtain ⟨k, _, rfl⟩ := ha
        rw [show (bigAnchor (base + q * 60 + k)).href = bigLink (base + q * 60 + k) from rfl,
          to_abs_bigLink]
        intro hmem
        obtain ⟨i, hi, he⟩ := (hspec _).mp hmem
        have := bigLink_inj he
        omega)
      (by
        intro a ha
        simp only [bigPage, List.mem_map, List.mem_range] at ha
        obtain ⟨k, _, rfl⟩ := ha
        exact (by decide : wordSearchCI "ended" "Starts in 2 days" = false))
      (by
        intro a ha
        simp only [bigPage, List.mem_map, List.mem_range] at ha
        obtain ⟨k, _, rfl⟩ := ha
        exact (by decide : statusPhrase "Starts in 2 days" = true))
      (by
        rw [show ((bigPage (base + q * 60)).map fun a => to_abs a.href)
            = (List.range 60).map (fun k => bigLink (base + q * 60 + k)) from by
          simp only [bigPage, List.map_map]
          refine List.map_congr_left ?_
          intro k _
          simp only [Function.comp_apply]
          exact to_abs_bigLink _]
        refine List.Nodup.map ?_ (List.nodup_range 60)
        intro i j hij
        have := bigLink_inj hij
        omega)
      (by simp [bigPage])
      (by simp [bigPage]; omega)
    have hlen60 : ((bigPage (base + q * 60)).map
        fun a => ((to_abs a.href, a.time) : String × Option Int)).length = 60 := by
      simp [bigPage]
    have hstep : walkPages (fetchBig base) 0 60 400 ((q + 1) :: List.range' (q + 2) m) seen col log
        = walkPages (fetchBig base) 0 60 400 (List.range' (q + 2) m)
            (((bigPage (base + q * 60)).map fun a => to_abs a.href).reverse ++ seen)
            (col ++ (bigPage (base + q * 60)).map fun a => (to_abs a.href, a.time)) (log ++ [q + 1]) := by
      rw [show walkPages (fetchBig base) 0 60 400 ((q + 1) :: List.range' (q + 2) m) seen col log
          = (if 400 ≤ col.length then (⟨seen, col, log⟩ : WalkResult)
            else match fetchBig base (q + 1) with
              | none => walkPages (fetchBig base) 0 60 400 (List.range' (q + 2) m) seen col (log ++ [q + 1])
              | some anchors =>
                let r := scanAnchors 0 60 400 anchors (seen, col, 0)
                if r.2.2 = 0 ∧ 1 < q + 1 then ⟨r.1, r.2.1, log ++ [q + 1]⟩
                else walkPages (fetchBig base) 0 60 400 (List.range' (q + 2) m) r.1 r.2.1 (log ++ [q + 1]))
          from rfl]
      rw [if_neg (by omega), hfetch]
      simp only [hscan]
      rw [if_neg (by simp [bigPage])]
    have hspec' : SeenSpec (base + (q + 1) * 60)
        (((bigPage (base + q * 60)).map fun a => to_abs a.href).reverse ++ seen) := by
      intro x
      simp only [List.mem_append, List.mem_reverse, List.mem_map]
      constructor
      · rintro (⟨a, ha, rfl⟩ | hx)
        · simp only [bigPage, List.mem_map, List.mem_range] at ha
          obtain ⟨k, hk, rfl⟩ := ha
          rw [show (bigAnchor (base + q * 60 + k)).href = bigLink (base + q * 60 + k) from rfl,
            to_abs_bigLink]
          exact ⟨base + q * 60 + k, by omega, rfl⟩
        · obtain ⟨i, hi, rfl⟩ := (hspec x).mp hx
          exact ⟨i, by omega, rfl⟩
      · rintro ⟨i, hi, rfl⟩
        by_cases hlt : i < base + q * 60
        · exact Or.inr ((hspec _).mpr ⟨i, hlt, rfl⟩)
        · refine Or.inl ⟨bigAnchor i, ?_, ?_⟩
          · simp only [bigPage, List.mem_map, List.mem_range]
            exact ⟨i - (base + q * 60), by omega, by congr 1; omega⟩
          · rw [show (bigAnchor i).href = bigLink i from rfl, to_abs_bigLink]
    have ih := walkPages_big base m (q + 1)
      (((bigPage (base + q * 60)).map fun a => to_abs a.href).reverse ++ seen)
      (col ++ (bigPage (base + q * 60)).map fun a => (to_abs a.href, a.time)) (log ++ [q + 1])
      hspec' (by simp only [List.length_append, hlen60]; omega)
    rw [hrange, hstep]
    refine ⟨?_, ?_⟩
    · have : base + (q + 1) * 60 + 60 * m = base + q * 60 + 60 * (m + 1) := by ring
      rw [← this]
      exact ih.1
    · rw [ih.2]
      simp only [List.length_append, hlen60]
      omega

/-- One synthetic listing walked with the configured caps keeps exactly 300
links and extends the registry by its 300 indices. -/
theorem items_big (base : Nat) (seen : List String) (h : SeenSpec base seen) :
    SeenSpec (base + 300) (items_from_jams_list_links (fetchBig base) 0 seen).seen ∧
      (items_from_jams_list_links (fetchBig base) 0 seen).collected.length = 300 := by
  have hw := walkPages_big base 5 0 seen [] [] (by simpa using h) (by simp)
  simp only [Nat.zero_mul, Nat.add_zero, List.length_nil, Nat.zero_add] at hw
  simpa [items_from_jams_list_links, collect_jam_links_from_listing, MAX_JAMS_PAGES,
    MAX_JAMS_PER_PAGE, MAX_JAMS_TOTAL] using hw

/-- Every pair the page scan adds to `collected` comes from an anchor of the
page that passed the whole card filter. -/
theorem scanAnchors_provenance (now : Int) (pc tc : Nat) :
    ∀ (l : List JamAnchor) (st : List String × List (String × Option Int) × Nat)
      (pr : String × Option Int),
      pr ∈ (scanAnchors now pc tc l st).2.1 →
      pr ∈ st.2.1 ∨ ∃ a ∈ l, to_abs a.href = pr.1 ∧ a.time = pr.2 ∧
        wordSearchCI "ended" a.blob = false ∧ keepCard now a = true
  | [], st, pr, h => Or.inl (by simpa [scanAnchors] using h)
  | a :: rest, (seen, col, sp), pr, h => by
    rw [show scanAnchors now pc tc (a :: rest) (seen, col, sp) =
        (if cardEligible now seen a then
          (if decide (pc ≤ sp + 1) || decide (tc ≤ (col ++ [(to_abs a.href, a.time)]).length) then
            (to_abs a.href :: seen, col ++ [(to_abs a.href, a.time)], sp + 1)
          else scanAnchors now pc tc rest
            (to_abs a.href :: seen, col ++ [(to_abs a.href, a.time)], sp + 1))
        else scanAnchors now pc tc rest (seen, col, sp)) from rfl] at h
    by_cases hel : cardEligible now seen a = true
    · rw [if_pos hel] at h
      obtain ⟨-, -, -, hend, hkeep⟩ := (cardEligible_iff now seen a).mp hel
      by_cases hbrk : (decide (pc ≤ sp + 1) || decide (tc ≤ (col ++ [(to_abs a.href, a.time)]).length)) = true
      · rw [if_pos hbrk] at h
        simp only [List.mem_append, List.mem_singleton] at h
        rcases h with h | h
        · exact Or.inl h
        · exact Or.inr ⟨a, by simp, by simp [h], by simp [h], hend, hkeep⟩
      · rw [if_neg hbrk] at h
        rcases scanAnchors_provenance now pc tc rest _ pr h with h2 | h2
        · simp only [List.mem_append, List.mem_singleton] at h2
          rcases h2 with h2 | h2
          · exact Or.inl h2
          · exact Or.inr ⟨a, by simp, by simp [h2], by simp [h2], hend, hkeep⟩
        · obtain ⟨b, hb, hrest⟩ := h2
          exact Or.inr ⟨b, by simp [hb], hrest⟩
    · rw [if_neg hel] at h
      rcases scanAnchors_provenance now pc tc rest _ pr h with h2 | h2
      · exact Or.inl h2
      · obtain ⟨b, hb, hrest⟩ := h2
        exact Or.inr ⟨b, by simp [hb], hrest⟩

/-- Every pair the page loop adds to `collected` comes from a card of some
successfully fetched page that passed the whole card filter. -/
theorem walkPages_provenance (fetch : Nat → Option (List JamAnchor)) (now : Int)
    (pc tc : Nat) :
    ∀ (ps : List Nat) (seen : List String) (col : List (String × Option Int))
      (log : List Nat) (pr : String × Option Int),
      pr ∈ (walkPages fetch now pc tc ps seen col log).collected →
      pr ∈ col ∨ ∃ p anchors a, fetch p = some anchors ∧ a ∈ anchors ∧
        to_abs a.href = pr.1 ∧ a.time = pr.2 ∧
        wordSearchCI "ended" a.blob = false ∧ keepCard now a = true
  | [], seen, col, log, pr, h => Or.inl (by simpa [walkPages] using h)
  | p :: ps, seen, col, log, pr, h => by
    rw [show walkPages fetch now pc tc (p :: ps) seen col log =
        (if tc ≤ col.length then (⟨seen, col, log⟩ : WalkResult)
        else match fetch p with
          | none => walkPages fetch now pc tc ps seen col (log ++ [p])
          | some anchors =>
            let r := scanAnchors now pc tc anchors (seen, col, 0)
            if r.2.2 = 0 ∧ 1 < p then ⟨r.1, r.2.1, log ++ [p]⟩
            else walkPages fetch now pc tc ps r.1 r.2.1 (log ++ [p])) from rfl] at h
    by_cases hcap : tc ≤ col.length
    · rw [if_pos hcap] at h
      exact Or.inl h
    · rw [if_neg hcap] at h
      cases hf : fetch p with
      | none =>
        rw [hf] at h
        exact walkPages_provenance fetch now pc tc ps seen col (log ++ [p]) pr h
      | some anchors =>
        rw [hf] at h
        simp only at h
        by_cases hstop : (scanAnchors now pc tc anchors (seen, col, 0)).2.2 = 0 ∧ 1 < p
        · rw [if_pos hstop] at h
          rcases scanAnchors_provenance now pc tc anchors (seen, col, 0) pr h with h2 | h2
          · exact Or.inl h2
          · obtain ⟨a, ha, hrest⟩ := h2
            exact Or.inr ⟨p, anchors, a, hf, ha, hrest⟩
        · rw [if_neg hstop] at h
          rcases walkPages_provenance fetch now pc tc ps _ _ (log ++ [p]) pr h with h2 | h2
          · rcases scanAnchors_provenance now pc tc anchors (seen, col, 0) pr h2 with h3 | h3
            · exact Or.inl h3
            · obtain ⟨a, ha, hrest⟩ := h3
              exact Or.inr ⟨p, anchors, a, hf, ha, hrest⟩
          · exact Or.inr h2

/-- The `found` list a source loop produces: the prior list extended by the
discovered items whose fingerprint misses the seen-set loaded at run start. -/
theorem processItems_spec (seen0 : Finset String) :
    ∀ (l : List Item) (found : List Item) (ns : Finset String),
      processItems seen0 l (found, ns) =
        (found ++ l.filter (fun it => !decide (hash_item it ∈ seen0)),
          ns ∪ (l.map hash_item).toFinset)
  | [], found, ns => by simp [processItems]
  | it :: rest, found, ns => by
    rw [show processItems seen0 (it :: rest) (found, ns) =
        processItems seen0 rest
          ((if hash_item it ∈ seen0 then found else found ++ [it]),
            insert (hash_item it) ns) from rfl]
    rw [processItems_spec seen0 rest _ _]
    by_cases hmem : hash_item it ∈ seen0
    · rw [if_pos hmem]
      simp only [List.filter_cons, List.map_cons, List.toFinset_cons, Prod.mk.injEq]
      refine ⟨by simp [hmem], ?_⟩
      ext x
      simp
    · rw [if_neg hmem]
      simp only [List.filter_cons, List.map_cons, List.toFinset_cons, Prod.mk.injEq]
      refine ⟨by simp [hmem], ?_⟩
      ext x
      simp

/-- Same characterization lifted over all sources of a run. -/
theorem runSources_spec (seen0 : Finset String) :
    ∀ (pages : List (Option (List Item))) (found : List Item) (ns : Finset String),
      runSources seen0 pages (found, ns) =
        (found ++ (discovered pages).filter (fun it => !decide (hash_item it ∈ seen0)),
          ns ∪ ((discovered pages).map hash_item).toFinset)
  | [], found, ns => by simp [runSources, discovered]
  | none :: rest, found, ns => by
    rw [show runSources seen0 (none :: rest) (found, ns) =
      runSources seen0 rest (found, ns) from rfl]
    rw [runSources_spec seen0 rest found ns]
    simp [discovered]
  | some items :: rest, found, ns => by
    rw [show runSources seen0 (some items :: rest) (found, ns) =
      runSources seen0 rest (processItems seen0 items (found, ns)) from rfl]
    rw [processItems_spec seen0 items found ns, runSources_spec seen0 rest _ _]
    simp only [discovered, List.filter_append, List.map_append, Prod.mk.injEq]
    refine ⟨by simp, ?_⟩
    ext x
    simp [or_assoc]

theorem within_age_some {ts : Option Int} {d now : Int}
    (h : within_age ts d now = true) : ts ≠ none := by
  cases ts <;> simp [within_age] at h ⊢

theorem blogItems_ts (label : String) (now : Int) (fetchTs : String → Option Int) :
    ∀ (l : List PageAnchor) (it : Item), it ∈ blogItems label now fetchTs l → it.ts ≠ none
  | [], it, h => by simp [blogItems] at h
  | a :: rest, it, h => by
    simp only [blogItems] at h
    split_ifs at h
    all_goals
      first
      | exact blogItems_ts label now fetchTs rest it h
      | (rcases List.mem_cons.mp h with rfl | h9
         · first
           | exact within_age_some
               ‹within_age (fetchTs (to_abs a.href)) MAX_AGE_DAYS now = true›
           | exact absurd ‹within_age none MAX_AGE_DAYS now = true› (by simp [within_age])
         · exact blogItems_ts label now fetchTs rest it h9)

theorem genericItems_ts (label : String) (now : Int) (pageTs : Option Int) :
    ∀ (l : List PageAnchor) (it : Item), it ∈ genericItems label now pageTs l → it.ts ≠ none
  | [], it, h => by simp [genericItems] at h
  | a :: rest, it, h => by
    simp only [genericItems] at h
    split_ifs at h
    all_goals
      first
      | exact genericItems_ts label now pageTs rest it h
      | (rcases List.mem_cons.mp h with rfl | h9
         · exact within_age_some ((Bool.and_eq_true _ _).mp
             ‹(charityMatches (a.text ++ " — " ++ anchorSnippet a) &&
               within_age pageTs MAX_AGE_DAYS now) = true›).2
         · exact genericItems_ts label now pageTs rest it h9)

theorem jamDetailItems_ts (label : String) (now : Int) (fetchJam : String → Option JamDetail) :
    ∀ (kept : List (String × Option Int)) (it : Item),
      it ∈ jamDetailItems label now fetchJam kept → it.ts ≠ none
  | [], it, h => by simp [jamDetailItems] at h
  | (jlink, cardTs) :: rest, it, h => by
    simp only [jamDetailItems] at h
    cases hf : fetchJam jlink with
    | none =>
      rw [hf] at h
      exact jamDetailItems_ts label now fetchJam rest it h
    | some d =>
      rw [hf] at h
      simp only at h
      split_ifs at h
      all_goals
        first
        | exact jamDetailItems_ts label now fetchJam rest it h
        | (rcases List.mem_cons.mp h with rfl | h9
           · simp
           · exact jamDetailItems_ts label now fetchJam rest it h9)

/-! ## Claim theorems -/

/-- Claim C1: Ended-exclusion is a hard card filter of the Jam Pagination
Walker.  Every pair the walker collects originates from an anchor of some
successfully fetched page whose container text does NOT contain the whole word
"Ended" (case-insensitively); equivalently, a card whose container text contains
"Ended" is never added to the collected jam links, regardless of which status
phrases or structured times are also present in that text. -/
theorem ended_cards_never_collected
    (fetch : Nat → Option (List JamAnchor)) (now : Int)
    (maxPages pc tc : Nat) (seen0 : List String) (pr : String × Option Int)
    (h : pr ∈ (collect_jam_links_from_listing fetch now maxPages pc tc seen0).collected) :
    ∃ p anchors a, fetch p = some anchors ∧ a ∈ anchors ∧
      to_abs a.href = pr.1 ∧ a.time = pr.2 ∧ wordSearchCI "ended" a.blob = false := by
  rcases walkPages_provenance fetch now pc tc (List.range' 1 maxPages) seen0 [] [] pr
      (by simpa [collect_jam_links_from_listing] using h) with h2 | h2
  · simp at h2
  · obtain ⟨p, anchors, a, hf, ha, ha1, ha2, ha3, -⟩ := h2
    exact ⟨p, anchors, a, hf, ha, ha1, ha2, ha3⟩

theorem ended_cards_never_collected_witness :
    ∃ p anchors a, fetchStop p = some anchors ∧ a ∈ anchors ∧
      to_abs a.href = "https://itch.io/jam/a1" ∧ a.time = none ∧
      wordSearchCI "ended" a.blob = false := by
  have h := ended_cards_never_collected fetchStop 0 5 60 400 []
    ("https://itch.io/jam/a1", none) (by decide)
  simpa using h

/-- Claim C2: for a card that passed the earlier checks (jam-shaped link, not
already registered, not Ended), the card is kept iff either a structured time
was found, it lies strictly in the future and one of the phrases "Starts in",
"Submission closes in", "Ends in", "Closes in" occurs (case-insensitively) in
the container text, or no structured time was found and one of those phrases
occurs. -/
theorem card_keep_iff (now : Int) (seen : List String) (a : JamAnchor)
    (h1 : strHas "/jam/" a.href = true)
    (h2 : strStarts "https://itch.io/jam/" (to_abs a.href) = true)
    (h3 : to_abs a.href ∉ seen)
    (h4 : wordSearchCI "ended" a.blob = false) :
    cardEligible now seen a = true ↔
      match a.time with
      | some t =>
        (wordSearchCI "starts in" a.blob = true ∨
          wordSearchCI "submission closes in" a.blob = true ∨
          wordSearchCI "ends in" a.blob = true ∨
          wordSearchCI "closes in" a.blob = true) ∧ now < t
      | none =>
        wordSearchCI "starts in" a.blob = true ∨
          wordSearchCI "submission closes in" a.blob = true ∨
          wordSearchCI "ends in" a.blob = true ∨
          wordSearchCI "closes in" a.blob = true := by
  rw [cardEligible_iff]
  cases ht : a.time with
  | none => simp [h1, h2, h3, h4, keepCard, ht, statusPhrase, Bool.or_eq_true, or_assoc]
  | some t => simp [h1, h2, h3, h4, keepCard, ht, statusPhrase, Bool.or_eq_true, or_assoc]

theorem card_keep_iff_witness :
    cardEligible 0 [] (jamCard "w") = true :=
  (card_keep_iff 0 [] (jamCard "w") (by decide) (by decide) (by decide)
    (by decide)).mpr (Or.inr (Or.inr (Or.inl (by decide))))

/-- Claim C3, counterexample: the claim lists "fundraising" in the matcher
vocabulary, but the text "fundraising" (which contains the whole word
"fundraising" and no other vocabulary term) is NOT matched: the regex
alternative `fund(?:\s*raiser)?` matches only "fund", "fundraiser" or
"fund raiser" followed by a word boundary, and inside "fundraising" the
boundary after "fund" fails. -/
theorem charity_fundraising_not_matched : charityMatches "fundraising" = false := by
  decide

/-- Claim C3, amended: the matcher is case-insensitive and whole-word against
the vocabulary charity, fundraiser, donation, relief, mutual aid, non-profit
(with hyphen, space, or neither), benefit, and fund (also "fund raiser" with
whitespace); "nonprofital" and the longer word "fundraising" do not match,
while a hyphen and a space between "non" and "profit" both match. -/
theorem charity_vocabulary_exact :
    charityMatches "charity" = true ∧ charityMatches "fundraiser" = true ∧
    charityMatches "donation" = true ∧ charityMatches "relief" = true ∧
    charityMatches "mutual aid" = true ∧ charityMatches "non-profit" = true ∧
    charityMatches "non profit" = true ∧ charityMatches "nonprofit" = true ∧
    charityMatches "benefit" = true ∧ charityMatches "fund" = true ∧
    charityMatches "fund raiser" = true ∧
    charityMatches "Zombie CHARITY Jam" = true ∧
    charityMatches "nonprofital" = false ∧
    charityMatches "fundraising" = false ∧
    charityMatches "benefits" = false := by
  decide

/-- Claim C4: the configured total cap is NOT global across jam-listing
sources.  Two synthetic listings, each full of distinct keepable cards, make
one run keep 600 jam links in total, exceeding `MAX_JAMS_TOTAL = 400`: the
script re-enters `collect_jam_links_from_listing` with a fresh `collected`
list per listing URL, so the cap only bounds each listing separately. -/
theorem jam_total_cap_is_per_listing :
    ((runJamSources 0 [fetchBig 0, fetchBig 300] []).map List.length).sum = 600 ∧
      MAX_JAMS_TOTAL < 600 := by
  have h1 := items_big 0 [] seenSpec_empty
  have h2 := items_big 300 (items_from_jams_list_links (fetchBig 0) 0 []).seen
    (by simpa using h1.1)
  refine ⟨?_, by norm_num [MAX_JAMS_TOTAL]⟩
  simp [runJamSources, h1.2, h2.2]

/-- Claim C5: the list handed to the feed assembler is `found[-50:]`, so its
length is exactly `min 50 (number of new items discovered this run)` and it is
a suffix of the discovery-ordered new list; the persisted seen-set is the
seen-set loaded at run start united with the fingerprints of ALL items
discovered this run, independent of how many items were emitted. -/
theorem bounded_feed_output (pages : List (Option (List Item))) (seen0 : Finset String) :
    (mainRun pages seen0).emitted.length = min 50 (mainRun pages seen0).found.length ∧
    (∃ pre, (mainRun pages seen0).found = pre ++ (mainRun pages seen0).emitted) ∧
    (mainRun pages seen0).newSeen =
      seen0 ∪ ((discovered pages).map hash_item).toFinset := by
  refine ⟨?_, ⟨(mainRun pages seen0).found.take
    ((mainRun pages seen0).found.length - 50), ?_⟩, ?_⟩
  · simp only [mainRun, pyTail, List.length_drop]
    omega
  · exact (List.take_append_drop _ _).symm
  · simp [mainRun, runSources_spec]

/-- Claim C8: a second run from the persisted seen-set over unchanged content
discovers no new items (every candidate fingerprint is already present), emits
nothing, and persists a seen-set equal (hence equal in size) to the one the
first run persisted. -/
theorem second_run_yields_nothing (pages : List (Option (List Item))) (seen0 : Finset String) :
    (mainRun pages (mainRun pages seen0).newSeen).found = [] ∧
    (mainRun pages (mainRun pages seen0).newSeen).emitted = [] ∧
    (mainRun pages (mainRun pages seen0).newSeen).newSeen = (mainRun pages seen0).newSeen ∧
    (mainRun pages (mainRun pages seen0).newSeen).newSeen.card =
      (mainRun pages seen0).newSeen.card := by
  have hs1 : (mainRun pages seen0).newSeen =
      seen0 ∪ ((discovered pages).map hash_item).toFinset := by
    simp [mainRun, runSources_spec]
  have hfilter : (discovered pages).filter
      (fun it => !decide (hash_item it ∈
        seen0 ∪ ((discovered pages).map hash_item).toFinset)) = [] := by
    rw [List.filter_eq_nil_iff]
    intro it hit
    simp only [Finset.mem_union, List.mem_toFinset, List.mem_map,
      Bool.not_eq_true', decide_eq_false_iff_not, not_not]
    exact Or.inr ⟨it, hit, rfl⟩
  have hfound : (mainRun pages (mainRun pages seen0).newSeen).found = [] := by
    simp only [mainRun, runSources_spec, List.nil_append]
    exact hfilter
  refine ⟨hfound, ?_, ?_, ?_⟩
  · have h2 : (mainRun pages (mainRun pages seen0).newSeen).emitted
        = pyTail 50 (mainRun pages (mainRun pages seen0).newSeen).found := rfl
    rw [h2, hfound]
    simp [pyTail]
  · simp only [mainRun, runSources_spec, List.nil_append]
    rw [Finset.union_assoc, Finset.union_self]
  · simp only [mainRun, runSources_spec, List.nil_append]
    rw [Finset.union_assoc, Finset.union_self]

/-- Claim C9: the fingerprint of an item depends only on the separator-free
concatenation `title ++ link`, so two items with distinct (title, link) pairs
whose concatenations coincide get the same fingerprint (and hence the same RSS
guid — `build_rss` writes `hash_item it` as the guid — and the same dedup key). -/
theorem fingerprint_depends_on_concatenation :
    (∀ i1 i2 : Item, i1.title ++ i1.link = i2.title ++ i2.link →
      hash_item i1 = hash_item i2) ∧
    hash_item ⟨"ab", "c", "", none⟩ = hash_item ⟨"a", "bc", "", none⟩ ∧
    (Item.mk "ab" "c" "" none).title ≠ (Item.mk "a" "bc" "" none).title := by
  have hgen : ∀ i1 i2 : Item, i1.title ++ i1.link = i2.title ++ i2.link →
      hash_item i1 = hash_item i2 := by
    intro i1 i2 h
    unfold hash_item
    rw [h]
  exact ⟨hgen, hgen _ _ (by decide), by decide⟩

theorem fingerprint_depends_on_concatenation_witness :
    hash_item ⟨"xy", "z", "s", none⟩ = hash_item ⟨"x", "yz", "t", some 3⟩ :=
  fingerprint_depends_on_concatenation.1 _ _ (by decide)

/-- Claim C10: every candidate item carries a present timestamp — blog and
generic-page items only survive the freshness gate (which rejects absent
timestamps) and jam items get the card timestamp or the current time — so the
feed assembler fallback `it.get("ts") or now` never substitutes the current
time for an absent timestamp. -/
theorem items_always_timestamped :
    (∀ (label : String) (now : Int) (fetchTs : String → Option Int)
        (l : List PageAnchor) (it : Item),
        it ∈ blogItems label now fetchTs l → it.ts ≠ none) ∧
    (∀ (label : String) (now : Int) (pageTs : Option Int)
        (l : List PageAnchor) (it : Item),
        it ∈ genericItems label now pageTs l → it.ts ≠ none) ∧
    (∀ (label : String) (now : Int) (fetchJam : String → Option JamDetail)
        (kept : List (String × Option Int)) (it : Item),
        it ∈ jamDetailItems label now fetchJam kept → it.ts ≠ none) ∧
    (∀ (it : Item) (n1 n2 : Int), it.ts ≠ none → rssWhen it n1 = rssWhen it n2) := by
  refine ⟨blogItems_ts, genericItems_ts, jamDetailItems_ts, ?_⟩
  intro it n1 n2 h
  cases hts : it.ts with
  | none => exact absurd hts h
  | some t => simp [rssWhen, hts]

theorem items_always_timestamped_witness :
    (⟨"[BLOG] Charity bundle", "https://itch.io/blog/x", "", some 5⟩ : Item).ts ≠ none :=
  items_always_timestamped.1 "[BLOG]" 0 (fun _ => some 5)
    [⟨"/blog/x", "Charity bundle", none⟩] _ (by decide)

set_option maxRecDepth 100000 in
/-- Claim C6: pagination early-stop.  In general, when the walker reaches a
page `p > 1` whose fetch succeeds and whose scan yields zero new kept links, it
returns at once and fetches none of the remaining pages.  In particular, for
page yields [P1: 3 kept, P2: 0 kept, P3: 5 kept] it collects exactly the 3
links of P1 and only ever fetches pages 1 and 2; a zero-yield page 1 does not
trigger the stop (page 2 is still fetched and its cards kept); and a failed
page-2 fetch is skipped without stopping the walk (page 3 is fetched and its 5
cards kept). -/
theorem pagination_early_stop :
    (∀ (fetch : Nat → Option (List JamAnchor)) (now : Int) (pc tc : Nat)
        (p : Nat) (ps : List Nat) (seen : List String)
        (col : List (String × Option Int)) (log : List Nat) (anchors : List JamAnchor),
        col.length < tc → fetch p = some anchors → 1 < p →
        (scanAnchors now pc tc anchors (seen, col, 0)).2.2 = 0 →
        walkPages fetch now pc tc (p :: ps) seen col log =
          ⟨(scanAnchors now pc tc anchors (seen, col, 0)).1,
            (scanAnchors now pc tc anchors (seen, col, 0)).2.1, log ++ [p]⟩) ∧
    items_from_jams_list_links fetchStop 0 [] =
      ⟨["https://itch.io/jam/a3", "https://itch.io/jam/a2", "https://itch.io/jam/a1"],
        [("https://itch.io/jam/a1", none), ("https://itch.io/jam/a2", none),
          ("https://itch.io/jam/a3", none)], [1, 2]⟩ ∧
    items_from_jams_list_links fetchZeroFirst 0 [] =
      ⟨["https://itch.io/jam/c2", "https://itch.io/jam/c1"],
        [("https://itch.io/jam/c1", none), ("https://itch.io/jam/c2", none)], [1, 2, 3]⟩ ∧
    (items_from_jams_list_links fetchFailMid 0 []).fetched = [1, 2, 3, 4] ∧
    (items_from_jams_list_links fetchFailMid 0 []).collected.length = 8 := by
  refine ⟨?_, by decide, by decide, by decide, by decide⟩
  intro fetch now pc tc p ps seen col log anchors hcap hf hp h0
  rw [show walkPages fetch now pc tc (p :: ps) seen col log =
      (if tc ≤ col.length then (⟨seen, col, log⟩ : WalkResult)
      else match fetch p with
        | none => walkPages fetch now pc tc ps seen col (log ++ [p])
        | some anchors2 =>
          let r := scanAnchors now pc tc anchors2 (seen, col, 0)
          if r.2.2 = 0 ∧ 1 < p then ⟨r.1, r.2.1, log ++ [p]⟩
          else walkPages fetch now pc tc ps r.1 r.2.1 (log ++ [p])) from rfl]
  rw [if_neg (by omega), hf]
  show (if (scanAnchors now pc tc anchors (seen, col, 0)).2.2 = 0 ∧ 1 < p then
      (⟨(scanAnchors now pc tc anchors (seen, col, 0)).1,
        (scanAnchors now pc tc anchors (seen, col, 0)).2.1, log ++ [p]⟩ : WalkResult)
    else walkPages fetch now pc tc ps (scanAnchors now pc tc anchors (seen, col, 0)).1
      (scanAnchors now pc tc anchors (seen, col, 0)).2.1 (log ++ [p])) = _
  rw [if_pos ⟨h0, hp⟩]

theorem pagination_early_stop_witness :
    walkPages fetchNothing 0 60 400 [2, 9] [] [] [] = ⟨[], [], [2]⟩ :=
  pagination_early_stop.1 fetchNothing 0 60 400 2 [9] [] [] [] []
    (by decide) rfl (by decide) (by decide)

/-- Claim C7: the freshness gate `within_age` is true on a present timestamp
`T` iff `now - T` is at most the window of `W` days, is always false on an
absent timestamp, and (for a nonnegative window) accepts every timestamp in
the future. -/
theorem freshness_gate_iff (t now W : Int) :
    (within_age (some t) W now = true ↔ now - t ≤ W * 86400) ∧
    within_age none W now = false ∧
    (0 ≤ W → now ≤ t → within_age (some t) W now = true) := by
  refine ⟨?_, rfl, ?_⟩
  · simp only [within_age, decide_eq_true_eq]
    omega
  · intro hW ht
    simp only [within_age, decide_eq_true_eq]
    omega

theorem freshness_gate_iff_witness :
    within_age (some 100) 30 50 = true :=
  (freshness_gate_iff 100 50 30).2.2 (by norm_num) (by norm_num)

end ItchioFeed
